import Mathlib

/-!
Verification development for the `cms` repository (`src/cms/file.py`).

The Python module edits HTML template files: it normalizes file content,
fingerprints it with SHA-256 for optimistic concurrency, extracts named
`block`/`endblock` regions from jinja2 template text, resolves template
inheritance, and serializes form submissions back into template source.

Everything below is a shallow embedding of that module.  Text is modelled
as `List Char` (Python `str`), jinja2's raw token stream
(`Environment.lex`, i.e. `Lexer.tokeniter`) is modelled by an explicit
tokenizer for the template fragment the module exercises (literal data,
`\x7b% ... %\x7d` directives containing whitespace, bare identifiers and
double-quoted strings; variable and comment delimiters, digits and
operator characters are outside the modelled fragment and make the
tokenizer fail, matching the fact that the module never feeds them in the
behaviours verified here).  Fallible Python code (raising exceptions such
as `StopIteration` or `TemplateSyntaxError`) is modelled with `Option`.
-/

namespace Cms

/-! ## Normalization (`_normalize`, file.py lines 20-21) -/

/-- One character of Python's `str.strip("\n ")` character set. -/
def isStripChar (c : Char) : Bool := c = '\n' || c = ' '

/-- Python `content.replace("\r\n", "\n")`: collapse each CRLF pair, left to right. -/
def replaceCRLF : List Char → List Char
  | [] => []
  | [c] => [c]
  | c :: c2 :: cs =>
    if c = '\r' ∧ c2 = '\n' then '\n' :: replaceCRLF cs
    else c :: replaceCRLF (c2 :: cs)

/-- Python `s.strip("\n ")`: drop leading and trailing newlines and spaces. -/
def stripEnds (l : List Char) : List Char :=
  ((l.dropWhile isStripChar).reverse.dropWhile isStripChar).reverse

/-- The function `_normalize(content)`: canonicalize line ends, then strip the boundaries. -/
def normalize (l : List Char) : List Char := stripEnds (replaceCRLF l)

/-! ## Fingerprint (`_hash`, file.py lines 16-17)

`hashlib.sha256(content.encode()).hexdigest()`: UTF-8 encode, SHA-256,
lowercase hex.  Machine words are `Nat` reduced modulo `2 ^ 32`. -/

/-- UTF-8 encoding of one code point (`str.encode()`). -/
def utf8Char (n : Nat) : List Nat :=
  if n < 128 then [n]
  else if n < 2048 then [192 ||| (n >>> 6), 128 ||| (n &&& 63)]
  else if n < 65536 then
    [224 ||| (n >>> 12), 128 ||| ((n >>> 6) &&& 63), 128 ||| (n &&& 63)]
  else
    [240 ||| (n >>> 18), 128 ||| ((n >>> 12) &&& 63),
     128 ||| ((n >>> 6) &&& 63), 128 ||| (n &&& 63)]

/-- UTF-8 encoding of a whole string. -/
def utf8Bytes (l : List Char) : List Nat :=
  (l.map (fun c => utf8Char c.toNat)).flatten

/-- Addition in the 32-bit word ring. -/
def add32 (a b : Nat) : Nat := (a + b) % 4294967296

/-- Right rotation of a 32-bit word by `n` places. -/
def rotate32 (n x : Nat) : Nat := ((x >>> n) ||| (x <<< (32 - n))) % 4294967296

/-- The SHA-256 choose function. -/
def ch32 (e f g : Nat) : Nat := (e &&& f) ^^^ ((e ^^^ 4294967295) &&& g)

/-- The SHA-256 majority function. -/
def maj32 (a b c : Nat) : Nat := (a &&& b) ^^^ (a &&& c) ^^^ (b &&& c)

/-- The SHA-256 compression mixer of the working variable `a`. -/
def mixA (x : Nat) : Nat := rotate32 2 x ^^^ rotate32 13 x ^^^ rotate32 22 x

/-- The SHA-256 compression mixer of the working variable `e`. -/
def mixE (x : Nat) : Nat := rotate32 6 x ^^^ rotate32 11 x ^^^ rotate32 25 x

/-- The SHA-256 schedule mixer of the fifteenth-previous word. -/
def mixLow (x : Nat) : Nat := rotate32 7 x ^^^ rotate32 18 x ^^^ (x >>> 3)

/-- The SHA-256 schedule mixer of the second-previous word. -/
def mixHigh (x : Nat) : Nat := rotate32 17 x ^^^ rotate32 19 x ^^^ (x >>> 10)

/-- The sixty-four SHA-256 round constants (written in decimal). -/
def sha256K : List Nat :=
  [1116352408, 1899447441, 3049323471,
   3921009573, 961987163, 1508970993,
   2453635748, 2870763221, 3624381080,
   310598401, 607225278, 1426881987,
   1925078388, 2162078206, 2614888103,
   3248222580, 3835390401, 4022224774,
   264347078, 604807628, 770255983,
   1249150122, 1555081692, 1996064986,
   2554220882, 2821834349, 2952996808,
   3210313671, 3336571891, 3584528711,
   113926993, 338241895, 666307205,
   773529912, 1294757372, 1396182291,
   1695183700, 1986661051, 2177026350,
   2456956037, 2730485921, 2820302411,
   3259730800, 3345764771, 3516065817,
   3600352804, 4094571909, 275423344,
   430227734, 506948616, 659060556,
   883997877, 958139571, 1322822218,
   1537002063, 1747873779, 1955562222,
   2024104815, 2227730452, 2361852424,
   2428436474, 2756734187, 3204031479,
   3329325298]

/-- The eight SHA-256 initial hash words (written in decimal). -/
def sha256H0 : List Nat :=
  [1779033703, 3144134277, 1013904242,
   2773480762, 1359893119, 2600822924,
   528734635, 1541459225]

/-- Big-endian length suffix of the padding (8 bytes encoding the bit length). -/
def lenBytes (bits : Nat) : List Nat :=
  [(bits >>> 56) % 256, (bits >>> 48) % 256, (bits >>> 40) % 256,
   (bits >>> 32) % 256, (bits >>> 24) % 256, (bits >>> 16) % 256,
   (bits >>> 8) % 256, bits % 256]

/-- SHA-256 message padding. -/
def padBytes (msg : List Nat) : List Nat :=
  msg ++ 128 :: List.replicate ((119 - msg.length % 64) % 64) 0
    ++ lenBytes (8 * msg.length)

/-- Big-endian 32-bit words from bytes. -/
def toWords : List Nat → List Nat
  | a :: b :: c :: d :: rest => (((a * 256 + b) * 256 + c) * 256 + d) :: toWords rest
  | _ => []

/-- Split the word list into 16-word blocks (the input length is a multiple
of 16 after padding). -/
def toBlocks : List Nat → List (List Nat)
  | w0 :: w1 :: w2 :: w3 :: w4 :: w5 :: w6 :: w7 ::
    w8 :: w9 :: w10 :: w11 :: w12 :: w13 :: w14 :: w15 :: rest =>
      [w0, w1, w2, w3, w4, w5, w6, w7, w8, w9, w10, w11, w12, w13, w14, w15]
        :: toBlocks rest
  | _ => []

/-- One message-schedule extension step on the reversed schedule
(newest word first). -/
def schedStep (ws : List Nat) : List Nat :=
  add32 (add32 (mixHigh (ws.getD 1 0)) (ws.getD 6 0))
    (add32 (mixLow (ws.getD 14 0)) (ws.getD 15 0)) :: ws

/-- The 64-word message schedule of one block. -/
def schedule (block : List Nat) : List Nat :=
  (Nat.iterate schedStep 48 block.reverse).reverse

/-- One SHA-256 compression round; the state is `[a,b,c,d,e,f,g,h]`. -/
def sha256Round (st : List Nat) (kw : Nat × Nat) : List Nat :=
  match st with
  | [a, b, c, d, e, f, g, h] =>
    let t1 := add32 h (add32 (mixE e) (add32 (ch32 e f g) (add32 kw.1 kw.2)))
    let t2 := add32 (mixA a) (maj32 a b c)
    [add32 t1 t2, a, b, c, add32 d t1, e, f, g]
  | _ => st

/-- Compress one 16-word block into the running hash. -/
def sha256Compress (h : List Nat) (block : List Nat) : List Nat :=
  let st := (sha256K.zip (schedule block)).foldl sha256Round h
  (h.zip st).map (fun p => add32 p.1 p.2)

/-- SHA-256 of a byte string, as eight 32-bit words. -/
def sha256 (msg : List Nat) : List Nat :=
  (toBlocks (toWords (padBytes msg))).foldl sha256Compress sha256H0

/-- One lowercase hex digit. -/
def hexDigit (n : Nat) : Char :=
  if n < 10 then Char.ofNat (48 + n) else Char.ofNat (87 + n)

/-- Lowercase hex of one 32-bit word. -/
def wordHex (w : Nat) : List Char :=
  [hexDigit ((w >>> 28) % 16), hexDigit ((w >>> 24) % 16),
   hexDigit ((w >>> 20) % 16), hexDigit ((w >>> 16) % 16),
   hexDigit ((w >>> 12) % 16), hexDigit ((w >>> 8) % 16),
   hexDigit ((w >>> 4) % 16), hexDigit (w % 16)]

/-- The function `_hash(content)`: SHA-256 hex digest of the UTF-8 encoded text. -/
def hashHex (content : List Char) : List Char :=
  ((sha256 (utf8Bytes content)).map wordHex).flatten

/-! ## Tokenizer (jinja2 `Environment.lex`, the raw `tokeniter` stream)

`_parse_block` and `_get_fields` consume `(lineno, ttype, value)` tuples;
only `ttype` and `value` matter to them, so tokens carry only those.  The
modelled fragment of jinja2's lexer covers literal data, `\x7b% ... %\x7d`
delimiters, whitespace runs, identifier names, and double-quoted strings
(whose token value keeps the quotes, as in the raw jinja2 stream); any
other construct makes the tokenizer return `none`, standing for the real
lexer producing tokens outside the modelled fragment or raising
`TemplateSyntaxError`. -/

/-- Token types of the modelled jinja2 stream fragment. -/
inductive TokKind
  | data
  | blockBegin
  | blockEnd
  | name
  | ws
  | str
  deriving DecidableEq, Repr

/-- One raw jinja2 token: its type and its verbatim source text. -/
structure Tok where
  kind : TokKind
  val : List Char
  deriving DecidableEq, Repr

/-- Identifier character of the modelled fragment (jinja2 names without
digits; fields and tags in this repository use only letters). -/
def isWordChar (c : Char) : Bool := c.isAlpha || c = '_'

/-- Whitespace recognized inside a directive. -/
def isWsChar (c : Char) : Bool := c = ' ' || c = '\t' || c = '\n' || c = '\r'

/-- Append one character to the front of the token list, merging it into
the leading token when that token has the same kind — this yields the
maximal-munch runs (data, whitespace, names) of the real lexer. -/
def pushTok (k : TokKind) (c : Char) : List Tok → List Tok
  | t :: ts => if t.kind = k then ⟨k, c :: t.val⟩ :: ts else ⟨k, [c]⟩ :: t :: ts
  | [] => [⟨k, [c]⟩]

/-- Prepend one character into a leading string token. -/
def mergeStr (c : Char) : List Tok → List Tok
  | ⟨TokKind.str, v⟩ :: ts => ⟨TokKind.str, c :: v⟩ :: ts
  | ts => ⟨TokKind.str, [c]⟩ :: ts

/-- Lexer mode: outside any delimiter, inside `\x7b% ... %\x7d`, or inside a
double-quoted string. -/
inductive LexSt
  | root
  | block
  | strMode
  deriving DecidableEq, Repr

/-- The tokenizer.  Second delimiter characters `\x7b` and `#` (variable
and comment delimiters) and unmodelled expression characters yield
`none`. -/
def lex : LexSt → List Char → Option (List Tok)
  | .root, [] => some []
  | .root, c :: cs =>
    if c = '\x7b' then
      match cs with
      | [] => some [⟨.data, ['\x7b']⟩]
      | c2 :: cs2 =>
        if c2 = '%' then
          (fun ts => ⟨.blockBegin, ['\x7b', '%']⟩ :: ts) <$> lex .block cs2
        else if c2 = '\x7b' ∨ c2 = '#' then none
        else pushTok .data c <$> lex .root (c2 :: cs2)
    else pushTok .data c <$> lex .root cs
  | .block, [] => none
  | .block, c :: cs =>
    if c = '%' then
      match cs with
      | [] => none
      | c2 :: cs2 =>
        if c2 = '\x7d' then
          (fun ts => ⟨.blockEnd, ['%', '\x7d']⟩ :: ts) <$> lex .root cs2
        else none
    else if c = '"' then mergeStr '"' <$> lex .strMode cs
    else if isWsChar c then pushTok .ws c <$> lex .block cs
    else if isWordChar c then pushTok .name c <$> lex .block cs
    else none
  | .strMode, [] => none
  | .strMode, c :: cs =>
    if c = '"' then (fun ts => ⟨.str, ['"']⟩ :: ts) <$> lex .block cs
    else mergeStr c <$> lex .strMode cs

/-! ## Field extraction (`_parse_block` and `_get_fields`, file.py 105-152)

`_get_fields` iterates the token stream looking for `block` directives and
calls `_parse_block`, which consumes tokens with a shared cursor until the
matching `endblock` (tracking a nesting depth).  Both loops share one
forward-only stream, so the pair is embedded as a single state machine
that consumes one token per step; each state is a program point of the
Python code:

* `top`      — the `for token in stream` loop of `_get_fields`;
* `seekKw`   — `until(stream, "name")` deciding whether the directive is a
               `block`;
* `seekName` — `until(stream, "name")` reading the region name;
* `seekEnd`  — `until(stream, "block_end")`;
* `blk`      — the main `while True` loop of `_parse_block` (region name,
               current `depth`, accumulated `data`);
* `blkDir`   — the inner `while ... != "name"` loop of `_parse_block`
               (additionally the accumulated `buffer`).

End of input in any state except `top` models the `StopIteration` raised
by `next(stream)`, which propagates out of `_get_fields`: no field
mapping is returned. -/

/-- Program points of the `_get_fields` / `_parse_block` pair. -/
inductive ScanSt
  | top
  | seekKw
  | seekName
  | seekEnd (n : List Char)
  | blk (n : List Char) (depth : Nat) (data : List Char)
  | blkDir (n : List Char) (depth : Nat) (data : List Char) (buf : List Char)
  deriving DecidableEq, Repr

/-- Python dict assignment `d[k] = v` on an insertion-ordered
association list: overwrite in place or append. -/
def dictInsert (k : List Char) (v : α) : List (List Char × α) → List (List Char × α)
  | [] => [(k, v)]
  | p :: rest => if p.1 = k then (k, v) :: rest else p :: dictInsert k v rest

/-- The fused `_get_fields` / `_parse_block` loop over the token stream. -/
def scan : ScanSt → List (List Char × List Char) → List Tok →
    Option (List (List Char × List Char))
  | .top, acc, [] => some acc
  | .top, acc, t :: ts =>
    if t.kind = .blockBegin then scan .seekKw acc ts else scan .top acc ts
  | .seekKw, _, [] => none
  | .seekKw, acc, t :: ts =>
    if t.kind = .name then
      if t.val = ("block".data) then scan .seekName acc ts else scan .top acc ts
    else scan .seekKw acc ts
  | .seekName, _, [] => none
  | .seekName, acc, t :: ts =>
    if t.kind = .name then scan (.seekEnd t.val) acc ts else scan .seekName acc ts
  | .seekEnd _, _, [] => none
  | .seekEnd n, acc, t :: ts =>
    if t.kind = .blockEnd then scan (.blk n 1 []) acc ts else scan (.seekEnd n) acc ts
  | .blk _ _ _, _, [] => none
  | .blk n d dat, acc, t :: ts =>
    if t.kind = .blockBegin then scan (.blkDir n d dat t.val) acc ts
    else scan (.blk n d (dat ++ t.val)) acc ts
  | .blkDir _ _ _ _, _, [] => none
  | .blkDir n d dat buf, acc, t :: ts =>
    if t.kind = .name then
      if t.val = ("endblock".data) then
        if d ≤ 1 then scan .top (dictInsert n (normalize dat) acc) ts
        else scan (.blk n (d - 1) (dat ++ buf ++ t.val)) acc ts
      else if t.val = ("block".data) then
        scan (.blk n (d + 1) (dat ++ buf ++ t.val)) acc ts
      else scan (.blk n d (dat ++ buf ++ t.val)) acc ts
    else scan (.blkDir n d dat (buf ++ t.val)) acc ts

/-- The function `_get_fields(content)`: the ordered name-to-content mapping of the
top-level regions, with each region content normalized; `none` models a
raised exception (lexing failure or `StopIteration`). -/
def getFields (content : List Char) : Option (List (List Char × List Char)) :=
  (lex .root content).bind (scan .top [])

/-! ## Region nesting depth at end of stream

A specification-level scan over the same token stream that tracks only
the region nesting depth of the extractor — the `depth` variable of
`_parse_block`, with `0` standing for the top-level `_get_fields` loop.
Its value at the end of the stream is the "depth at end of input" the
spec's parse-failure condition speaks about. -/

/-- Program points of the depth scan (the extractor states with names and
accumulated text erased). -/
inductive DepthSt
  | top
  | seekKw
  | seekName
  | seekEnd
  | blk (depth : Nat)
  | blkDir (depth : Nat)
  deriving DecidableEq, Repr

/-- The region nesting depth left when the token stream ends. -/
def endDepth : DepthSt → List Tok → Nat
  | .top, [] => 0
  | .top, t :: ts =>
    if t.kind = .blockBegin then endDepth .seekKw ts else endDepth .top ts
  | .seekKw, [] => 0
  | .seekKw, t :: ts =>
    if t.kind = .name then
      if t.val = ("block".data) then endDepth .seekName ts else endDepth .top ts
    else endDepth .seekKw ts
  | .seekName, [] => 0
  | .seekName, t :: ts =>
    if t.kind = .name then endDepth .seekEnd ts else endDepth .seekName ts
  | .seekEnd, [] => 0
  | .seekEnd, t :: ts =>
    if t.kind = .blockEnd then endDepth (.blk 1) ts else endDepth .seekEnd ts
  | .blk d, [] => d
  | .blk d, t :: ts =>
    if t.kind = .blockBegin then endDepth (.blkDir d) ts else endDepth (.blk d) ts
  | .blkDir d, [] => d
  | .blkDir d, t :: ts =>
    if t.kind = .name then
      if t.val = ("endblock".data) then
        if d ≤ 1 then endDepth .top ts else endDepth (.blk (d - 1)) ts
      else if t.val = ("block".data) then endDepth (.blk (d + 1)) ts
      else endDepth (.blk d) ts
    else endDepth (.blkDir d) ts

/-- Erase an extractor state to its depth-scan state. -/
def ScanSt.erase : ScanSt → DepthSt
  | .top => .top
  | .seekKw => .seekKw
  | .seekName => .seekName
  | .seekEnd _ => .seekEnd
  | .blk _ d _ => .blk d
  | .blkDir _ d _ _ => .blkDir d

/-! ## Top-level parse (`_is_template` and `_get_template`, file.py 85-96)

Both helpers run `jinja2.Environment().parse(content)` and inspect the
top-level node list: `_is_template` looks for a `Block` node,
`_get_template` returns `item.template.as_const()` of the first `Extends`
node (or `""`).  The parser is modelled for the template fragment this
repository produces — literal data, `extends` directives with one
double-quoted constant string, and arbitrarily nested
`block`/`endblock` regions; any other tag, a non-string `extends`
argument, or unbalanced regions yield `none` (the real parser raises
`TemplateSyntaxError`, or `as_const` fails, so the caller gets no
value). -/

/-- Program points of the top-level parse validation. -/
inductive TopSt
  | vtop (d : Nat)
  | vdir (d : Nat)
  | vext (d : Nat)
  | vextEnd (d : Nat)
  | vblk (d : Nat)
  | vblkEnd (d : Nat)
  | vend (d : Nat) (seenName : Bool)
  deriving DecidableEq, Repr

/-- Strip the surrounding double quotes of a raw string token. -/
def unquote (l : List Char) : List Char := (l.drop 1).dropLast

/-- Validate the token stream against the modelled template grammar while
collecting the first top-level `extends` target and whether a top-level
`block` node exists. -/
def parseTop : TopSt → Option (List Char) → Bool → List Tok →
    Option (Option (List Char) × Bool)
  | .vtop d, ext, blk, [] => if d = 0 then some (ext, blk) else none
  | .vtop d, ext, blk, t :: ts =>
    match t.kind with
    | .data => parseTop (.vtop d) ext blk ts
    | .blockBegin => parseTop (.vdir d) ext blk ts
    | _ => none
  | .vdir d, ext, blk, t :: ts =>
    match t.kind with
    | .ws => parseTop (.vdir d) ext blk ts
    | .name =>
      if t.val = ("extends".data) then parseTop (.vext d) ext blk ts
      else if t.val = ("block".data) then
        parseTop (.vblk d) ext (blk || d = 0) ts
      else if t.val = ("endblock".data) then
        if d = 0 then none else parseTop (.vend d false) ext blk ts
      else none
    | _ => none
  | .vext d, ext, blk, t :: ts =>
    match t.kind with
    | .ws => parseTop (.vext d) ext blk ts
    | .str =>
      if d = 0 ∧ ext = none then
        parseTop (.vextEnd d) (some (unquote t.val)) blk ts
      else parseTop (.vextEnd d) ext blk ts
    | _ => none
  | .vextEnd d, ext, blk, t :: ts =>
    match t.kind with
    | .ws => parseTop (.vextEnd d) ext blk ts
    | .blockEnd => parseTop (.vtop d) ext blk ts
    | _ => none
  | .vblk d, ext, blk, t :: ts =>
    match t.kind with
    | .ws => parseTop (.vblk d) ext blk ts
    | .name => parseTop (.vblkEnd d) ext blk ts
    | _ => none
  | .vblkEnd d, ext, blk, t :: ts =>
    match t.kind with
    | .ws => parseTop (.vblkEnd d) ext blk ts
    | .blockEnd => parseTop (.vtop (d + 1)) ext blk ts
    | _ => none
  | .vend d seen, ext, blk, t :: ts =>
    match t.kind with
    | .ws => parseTop (.vend d seen) ext blk ts
    | .name => if seen then none else parseTop (.vend d true) ext blk ts
    | .blockEnd => parseTop (.vtop (d - 1)) ext blk ts
    | _ => none
  | _, _, _, [] => none

/-- The function `_get_template(content)`: the first top-level `extends` target, `""`
when there is none; `none` models a raised parse error. -/
def getTemplate (content : List Char) : Option (List Char) :=
  ((lex .root content).bind (parseTop (.vtop 0) none false)).map
    (fun r => r.1.getD [])

/-- The function `_is_template(content)`: whether a top-level `block` node exists;
`none` models a raised parse error. -/
def isTemplate (content : List Char) : Option Bool :=
  ((lex .root content).bind (parseTop (.vtop 0) none false)).map (fun r => r.2)

/-! ## Inheritance resolution (`HTMLFile.render`, file.py 196-221)

The no-form branch of `HTMLFile.render`: read the template's own text,
find its parent with `_get_template`; with a parent, seed every parent
field as a placeholder and overlay the child's fields; without one, the
single implicit `content` field carries the whole normalized text.  The
parent file's text is passed in explicitly (the Python code reads it from
disk). -/

/-- The `_HTMLField` named tuple `(name_prefix, placeholder, value,
active)`; `pfx` stands for its first component. -/
structure HTMLField where
  pfx : List Char
  placeholder : List Char
  value : List Char
  active : Bool
  deriving DecidableEq, Repr

/-- Lookup in an insertion-ordered dict. -/
def dictFind (l : List (List Char × α)) (k : List Char) : Option α :=
  match l with
  | [] => none
  | p :: rest => if p.1 = k then some p.2 else dictFind rest k

/-- A Python dict built from a pair list (comprehension semantics). -/
def buildDict (l : List (List Char × α)) : List (List Char × α) :=
  l.foldl (fun d p => dictInsert p.1 p.2 d) []

/-- Python `d.update(o)` for insertion-ordered dicts. -/
def dictUpdate (d o : List (List Char × α)) : List (List Char × α) :=
  o.foldl (fun d p => dictInsert p.1 p.2 d) d

/-- Lines 200-217: seed the parent fields, then overlay the child's. -/
def overlayFields (pf cf : List (List Char × List Char)) :
    List (List Char × HTMLField) :=
  let f0 := buildDict (pf.map (fun p => (p.1, HTMLField.mk ("field_".data) p.2 [] true)))
  let cfm := buildDict (cf.map (fun p =>
    (p.1, HTMLField.mk ("field_".data)
      (match dictFind f0 p.1 with
       | some f => f.placeholder
       | none => [])
      p.2 (dictFind f0 p.1).isSome)))
  dictUpdate f0 cfm

/-- The resolved field mapping shown by `HTMLFile.render` when no form is
posted; `parentText` is the content of the parent template file. -/
def renderFields (content parentText : List Char) :
    Option (List (List Char × HTMLField)) :=
  match getTemplate content with
  | none => none
  | some t =>
    if t = [] then some [(("content".data), HTMLField.mk [] [] (normalize content) true)]
    else
      match getFields parentText, getFields content with
      | some pf, some cf => some (overlayFields pf cf)
      | _, _ => none

/-! ## Rendering fingerprint (`File.render`, file.py 31-47)

`File.render` reads the file, computes `content_hash = _hash(content)` on
the raw on-storage text, then displays `_normalize` of either the posted
form content or the file content. -/

/-- The `(content, content_hash)` pair handed to the page template by
`File.render`. -/
def renderInfo (content : List Char) (formContent : Option (List Char)) :
    List Char × List Char :=
  (normalize (formContent.getD content), hashHex content)

/-! ## Serializers and the update guard (file.py 49-82 and 236-267) -/

/-- The submitted form: `content_hash`, the `template` selector (absent
maps to `""`), the optional raw `content` value, and the `field_`-prefixed
entries with their prefix already stripped, in form order. -/
structure Form where
  contentHash : Option (List Char)
  template : List Char
  content : Option (List Char)
  fields : List (List Char × List Char)
  deriving DecidableEq, Repr

/-- The method `File._write`: the full text written for a plain file. -/
def fileWrite (form : Form) : List Char :=
  let c := normalize (form.content.getD [])
  if c = [] then [] else c ++ ['\n']

/-- The `\x7b% extends "..." %\x7d` header line, written when a template is
selected. -/
def extendsHdr (t : List Char) : List Char :=
  if t = [] then [] else ("\x7b% extends \"".data) ++ t ++ ("\" %\x7d\n".data)

/-- One structured-mode field emission (file.py 250-257): nothing for an
empty normalized value, otherwise the region wrapped in its directives. -/
def emitField (n v : List Char) : List Char :=
  let c := normalize v
  if c = [] then []
  else ("\n\x7b% block ".data) ++ n ++ (" %\x7d\n".data) ++ c
    ++ ("\n\x7b% endblock %\x7d\n".data)

/-- The structured-mode field loop of `HTMLFile._write`. -/
def serializeFields : List (List Char × List Char) → List Char
  | [] => []
  | p :: rest => emitField p.1 p.2 ++ serializeFields rest

/-- The method `HTMLFile._write`: the full text written for an HTML file; `none`
models `_is_template` raising on unparsable raw content. -/
def htmlWrite (form : Form) : Option (List Char) :=
  match form.content with
  | none => some (extendsHdr form.template ++ serializeFields form.fields)
  | some raw =>
    let c := normalize raw
    if c = [] then some (extendsHdr form.template)
    else if form.template = [] then some (extendsHdr form.template ++ c ++ ['\n'])
    else
      match isTemplate c with
      | none => none
      | some true => some (extendsHdr form.template ++ c ++ ['\n'])
      | some false =>
        some (extendsHdr form.template ++ ("\n\x7b% block content %\x7d\n".data)
          ++ c ++ ("\n\x7b% endblock %\x7d\n".data))

/-! ## Specification-side vocabulary for the round-trip property -/

/-- A character that can follow `\x7b` to open a jinja2 delimiter. -/
def badSnd (c : Char) : Bool := c = '%' || c = '\x7b' || c = '#'

/-- The head character `c` of a literal chunk, followed by the rest `ds`
of the chunk and then `cs`, does not open a delimiter. -/
def safeHead (c : Char) (ds cs : List Char) : Bool :=
  if c = '\x7b' then
    match ds, cs with
    | [], [] => true
    | [], c2 :: _ => !badSnd c2
    | c2 :: _, _ => !badSnd c2
  else true

/-- The predicate `safeChunk d cs`: the text `d`, placed immediately before `cs`,
contains no delimiter opening — no `\x7b` directly followed (inside `d`
or across the boundary to `cs`) by `%`, `\x7b` or `#`. -/
def safeChunk : List Char → List Char → Bool
  | [], _ => true
  | c :: ds, cs => safeHead c ds cs && safeChunk ds cs

/-- Prepend a run of literal characters onto a token list, merging into a
leading data token. -/
def mergeDataList (d : List Char) (ts : List Tok) : List Tok :=
  d.foldr (fun c ts => pushTok .data c ts) ts

/-- The token stream of one non-empty structured-mode field emission. -/
def emitToks (n v : List Char) : List Tok :=
  [⟨.data, ['\n']⟩, ⟨.blockBegin, ['\x7b', '%']⟩, ⟨.ws, [' ']⟩,
   ⟨.name, ("block".data)⟩, ⟨.ws, [' ']⟩, ⟨.name, n⟩, ⟨.ws, [' ']⟩,
   ⟨.blockEnd, ['%', '\x7d']⟩, ⟨.data, '\n' :: v ++ ['\n']⟩,
   ⟨.blockBegin, ['\x7b', '%']⟩, ⟨.ws, [' ']⟩, ⟨.name, ("endblock".data)⟩,
   ⟨.ws, [' ']⟩, ⟨.blockEnd, ['%', '\x7d']⟩]

/-- Error message returned when the form carries no `content_hash`. -/
def errMsg : List Char :=
  ("Fehler beim Bearbeiten.".data)

/-- Conflict message returned when the on-storage fingerprint differs. -/
def conflictMsg : List Char :=
  ("Datei wurde während des Bearbeiten auf der Festplatte verändert. Erneut auf Speichern klicken um die Datei auf der Festplatte zu überschreiben.".data)

/-- The method `File.update` (file.py 61-82) as a storage transition: `storage` is the
current file content (`none`: the file does not exist, `open` raises
`FileNotFoundError`), `w` is the dispatched `_write` body, and the result
is the returned message paired with the content on storage afterwards. -/
def update (w : Form → List Char) (storage : Option (List Char)) (form : Form) :
    Option (List Char) × Option (List Char) :=
  match form.contentHash with
  | none => (some errMsg, storage)
  | some h =>
    match storage with
    | none => (none, some (w form))
    | some cur =>
      if hashHex cur ≠ h then (some conflictMsg, some cur)
      else (none, some (w form))

/-! ## Helper lemmas -/

theorem serializeFields_append (l1 l2 : List (List Char × List Char)) :
    serializeFields (l1 ++ l2) = serializeFields l1 ++ serializeFields l2 := by
  induction l1 with
  | nil => rfl
  | cons p rest ih => simp [serializeFields, ih]

theorem emitField_empty {n v : List Char} (h : normalize v = []) :
    emitField n v = [] := by
  simp [emitField, h]

/-! ### Tokenization of serialized output -/

theorem pushTok_head_ne {k : TokKind} (c : Char) (t : Tok) (ts : List Tok)
    (h : ¬ t.kind = k) : pushTok k c (t :: ts) = ⟨k, [c]⟩ :: t :: ts := by
  simp [pushTok, h]

theorem pushTok_merge (k : TokKind) (c : Char) (v : List Char) (ts : List Tok) :
    pushTok k c (⟨k, v⟩ :: ts) = ⟨k, c :: v⟩ :: ts := by
  simp [pushTok]

theorem pushTok_shape (k : TokKind) (c : Char) (ts : List Tok) :
    ∃ v ts', pushTok k c ts = ⟨k, v⟩ :: ts' := by
  cases ts with
  | nil => exact ⟨[c], [], rfl⟩
  | cons t ts' =>
    by_cases h : t.kind = k
    · refine ⟨c :: t.val, ts', ?_⟩
      simp [pushTok, h]
    · refine ⟨[c], t :: ts', ?_⟩
      simp [pushTok, h]

theorem lex_root_nl (cs : List Char) :
    lex .root ('\n' :: cs) = (pushTok .data '\n') <$> lex .root cs := by
  rw [lex.eq_def]
  simp

theorem lex_root_open (cs : List Char) :
    lex .root ('\x7b' :: '%' :: cs) =
      (fun ts => Tok.mk .blockBegin ['\x7b', '%'] :: ts) <$> lex .block cs := by
  rw [lex.eq_def]
  simp

theorem lex_block_sp (cs : List Char) :
    lex .block (' ' :: cs) = (pushTok .ws ' ') <$> lex .block cs := by
  rw [lex.eq_def]
  simp [isWsChar]

theorem lex_block_close (cs : List Char) :
    lex .block ('%' :: '\x7d' :: cs) =
      (fun ts => Tok.mk .blockEnd ['%', '\x7d'] :: ts) <$> lex .root cs := by
  rw [lex.eq_def]
  simp

theorem lex_block_word (c : Char) (cs : List Char) (h : isWordChar c = true) :
    lex .block (c :: cs) = (pushTok .name c) <$> lex .block cs := by
  have h1 : ¬ c = '%' := by rintro rfl; exact absurd h (by decide)
  have h2 : ¬ c = '"' := by rintro rfl; exact absurd h (by decide)
  have h3 : ¬ isWsChar c = true := by
    intro hw
    simp only [isWsChar, Bool.or_eq_true, decide_eq_true_eq] at hw
    rcases hw with ((rfl | rfl) | rfl) | rfl <;> exact absurd h (by decide)
  rw [lex.eq_def]
  simp [h1, h2, h3, h]

theorem lex_block_name : ∀ (n : List Char), n ≠ [] → n.all isWordChar = true →
    ∀ cs : List Char, lex .block (n ++ ' ' :: cs) =
      (fun ts => Tok.mk .name n :: ts) <$> lex .block (' ' :: cs) := by
  intro n
  induction n with
  | nil => intro h; exact absurd rfl h
  | cons c n' ih =>
    intro _ hall cs
    have hc : isWordChar c = true := by
      simp only [List.all_cons, Bool.and_eq_true] at hall
      exact hall.1
    cases n' with
    | nil =>
      rw [show ([c] ++ ' ' :: cs) = c :: ' ' :: cs from rfl, lex_block_word c _ hc,
        lex_block_sp]
      cases hx : lex .block cs with
      | none => rfl
      | some ts =>
        show some (pushTok .name c (pushTok .ws ' ' ts)) =
          some (Tok.mk .name [c] :: pushTok .ws ' ' ts)
        obtain ⟨v, ts', hshape⟩ := pushTok_shape .ws ' ' ts
        rw [hshape, pushTok_head_ne c _ _ (by simp)]
    | cons c2 n'' =>
      have hall' : (c2 :: n'').all isWordChar = true := by
        simp only [List.all_cons, Bool.and_eq_true] at hall ⊢
        exact hall.2
      rw [show ((c :: c2 :: n'') ++ ' ' :: cs) = c :: ((c2 :: n'') ++ ' ' :: cs) from rfl,
        lex_block_word c _ hc, ih (by simp) hall' cs]
      cases hx : lex .block (' ' :: cs) with
      | none => rfl
      | some ts =>
        show some (pushTok .name c (Tok.mk .name (c2 :: n'') :: ts)) =
          some (Tok.mk .name (c :: c2 :: n'') :: ts)
        rw [pushTok_merge]

theorem mergeDataList_nil (ts : List Tok) : mergeDataList [] ts = ts := rfl

theorem mergeDataList_cons (c : Char) (d : List Char) (ts : List Tok) :
    mergeDataList (c :: d) ts = pushTok .data c (mergeDataList d ts) := rfl

theorem mergeDataList_head_ne : ∀ (d : List Char), d ≠ [] →
    ∀ (t : Tok) (ts : List Tok), ¬ t.kind = .data →
      mergeDataList d (t :: ts) = ⟨.data, d⟩ :: t :: ts := by
  intro d
  induction d with
  | nil => intro h; exact absurd rfl h
  | cons c d' ih =>
    intro _ t ts ht
    cases d' with
    | nil => rw [mergeDataList_cons, mergeDataList_nil, pushTok_head_ne c t ts ht]
    | cons c2 d'' =>
      rw [mergeDataList_cons, ih (by simp) t ts ht, pushTok_merge]

theorem lex_root_data : ∀ (d cs : List Char), safeChunk d cs = true →
    lex .root (d ++ cs) = (mergeDataList d) <$> lex .root cs := by
  intro d
  induction d with
  | nil =>
    intro cs _
    cases hx : lex .root cs <;> simp [mergeDataList_nil, hx]
  | cons c ds ih =>
    intro cs hsafe
    rw [show ((c :: ds) ++ cs) = c :: (ds ++ cs) from rfl]
    by_cases hc : c = '\x7b'
    · subst hc
      cases ds with
      | nil =>
        cases cs with
        | nil => decide
        | cons c2 cs2 =>
          have hb : badSnd c2 = false := by
            simp only [safeChunk, Bool.and_eq_true] at hsafe
            simpa [safeHead] using hsafe.1
          have h1 : ¬ c2 = '%' := by
            intro he; rw [he] at hb; exact absurd hb (by decide)
          have h2 : ¬ (c2 = '\x7b' ∨ c2 = '#') := by
            rintro (he | he) <;> rw [he] at hb <;> exact absurd hb (by decide)
          rw [show (([] : List Char) ++ c2 :: cs2) = c2 :: cs2 from rfl]
          rw [lex.eq_def]
          simp only [if_pos rfl, if_neg h1, if_neg h2, if_neg (by decide : ¬ ('\x7b' : Char) = '\x7d')]
          cases hx : lex .root (c2 :: cs2) <;>
            simp [hx, mergeDataList_cons, mergeDataList_nil]
      | cons c2 ds2 =>
        simp only [safeChunk, Bool.and_eq_true] at hsafe
        have hb : badSnd c2 = false := by
          simpa [safeHead] using hsafe.1
        have hrest : safeChunk (c2 :: ds2) cs = true := by
          simp only [safeChunk, Bool.and_eq_true]
          exact hsafe.2
        have h1 : ¬ c2 = '%' := by
          intro he; rw [he] at hb; exact absurd hb (by decide)
        have h2 : ¬ (c2 = '\x7b' ∨ c2 = '#') := by
          rintro (he | he) <;> rw [he] at hb <;> exact absurd hb (by decide)
        rw [show ((c2 :: ds2) ++ cs) = c2 :: (ds2 ++ cs) from rfl]
        rw [lex.eq_def]
        simp only [if_pos rfl, if_neg h1, if_neg h2]
        rw [show (c2 :: (ds2 ++ cs)) = ((c2 :: ds2) ++ cs) from rfl, ih cs hrest]
        cases hx : lex .root cs <;> simp [hx, mergeDataList_cons]
    · have hrest : safeChunk ds cs = true := by
        simp only [safeChunk, Bool.and_eq_true] at hsafe
        exact hsafe.2
      have hstep : lex .root (c :: (ds ++ cs)) =
          (pushTok .data c) <$> lex .root (ds ++ cs) := by
        rw [lex.eq_def]
        simp [hc]
      rw [hstep, ih cs hrest]
      cases hx : lex .root cs <;> simp [hx, mergeDataList_cons]

/-! ### Normalization facts -/

theorem length_dropWhile_le (p : Char → Bool) :
    ∀ l : List Char, (List.dropWhile p l).length ≤ l.length := by
  intro l
  induction l with
  | nil => simp
  | cons c l' ih =>
    by_cases hc : p c = true
    · rw [List.dropWhile_cons_of_pos hc]
      exact Nat.le_trans ih (by simp)
    · rw [List.dropWhile_cons_of_neg hc]

theorem dropWhile_eq_self_of_length (p : Char → Bool) :
    ∀ l : List Char, (List.dropWhile p l).length = l.length →
      List.dropWhile p l = l := by
  intro l
  induction l with
  | nil => intro _; rfl
  | cons c l' ih =>
    intro hlen
    by_cases hc : p c = true
    · rw [List.dropWhile_cons_of_pos hc] at hlen
      have := length_dropWhile_le p l'
      simp at hlen
      omega
    · rw [List.dropWhile_cons_of_neg hc]

theorem replaceCRLF_of_noCR : ∀ l : List Char, '\r' ∉ l → replaceCRLF l = l := by
  intro l
  induction l with
  | nil => intro _; rfl
  | cons c cs ih =>
    intro h
    have hc : ¬ c = '\r' := by
      intro he
      exact h (by rw [he]; exact List.mem_cons_self _ _)
    cases cs with
    | nil => rfl
    | cons c2 cs2 =>
      rw [replaceCRLF]
      rw [if_neg (by rintro ⟨h1, _⟩; exact hc h1)]
      rw [ih (fun hm => h (List.mem_cons_of_mem _ hm))]

theorem stripEnds_parts {v : List Char} (hst : stripEnds v = v) :
    List.dropWhile isStripChar v = v ∧
      List.dropWhile isStripChar v.reverse = v.reverse := by
  have h1 : (List.dropWhile isStripChar v).length = v.length := by
    refine Nat.le_antisymm (length_dropWhile_le _ _) ?_
    calc v.length = (stripEnds v).length := by rw [hst]
      _ ≤ ((v.dropWhile isStripChar).reverse.dropWhile isStripChar).length := by
          rw [stripEnds, List.length_reverse]
      _ ≤ (v.dropWhile isStripChar).reverse.length := length_dropWhile_le _ _
      _ = (v.dropWhile isStripChar).length := by rw [List.length_reverse]
  have h2 : List.dropWhile isStripChar v = v := dropWhile_eq_self_of_length _ _ h1
  refine ⟨h2, ?_⟩
  have h3 : stripEnds v = (v.reverse.dropWhile isStripChar).reverse := by
    rw [stripEnds, h2]
  rw [hst] at h3
  have h4 : v.reverse.dropWhile isStripChar = v.reverse := by
    have := congrArg List.reverse h3
    simpa using this.symm
  exact h4

theorem normalize_wrap {v : List Char} (hnorm : normalize v = v) (hne : v ≠ [])
    (hcr : '\r' ∉ v) : normalize ('\n' :: (v ++ ['\n'])) = v := by
  have hrep : replaceCRLF v = v := replaceCRLF_of_noCR v hcr
  have hst : stripEnds v = v := by
    have : normalize v = stripEnds v := by rw [normalize, hrep]
    rw [← this, hnorm]
  obtain ⟨hd, hrev⟩ := stripEnds_parts hst
  have hcr2 : '\r' ∉ ('\n' :: (v ++ ['\n'])) := by
    intro hm
    rcases List.mem_cons.mp hm with he | hm2
    · exact absurd he.symm (by decide)
    · rcases List.mem_append.mp hm2 with hm3 | hm3
      · exact hcr hm3
      · simp at hm3
  rw [normalize, replaceCRLF_of_noCR _ hcr2]
  obtain ⟨h, t, rfl⟩ : ∃ h t, v = h :: t := by
    cases v with
    | nil => exact absurd rfl hne
    | cons h t => exact ⟨h, t, rfl⟩
  have hph : ¬ isStripChar h = true := by
    intro hp
    rw [List.dropWhile_cons_of_pos hp] at hd
    have := length_dropWhile_le isStripChar t
    have hlen := congrArg List.length hd
    simp at hlen
    omega
  rw [stripEnds, List.dropWhile_cons_of_pos (by decide)]
  rw [show ((h :: t) ++ ['\n']) = h :: (t ++ ['\n']) from rfl]
  rw [List.dropWhile_cons_of_neg hph]
  rw [show (h :: (t ++ ['\n'])) = (h :: t) ++ ['\n'] from rfl]
  rw [List.reverse_append]
  rw [show (['\n'].reverse ++ (h :: t).reverse) = '\n' :: (h :: t).reverse from rfl]
  rw [List.dropWhile_cons_of_pos (by decide), hrev, List.reverse_reverse]

/-! ### Scanning serialized output -/

theorem scan_top_pushData (c : Char) (acc : List (List Char × List Char))
    (ts : List Tok) : scan .top acc (pushTok .data c ts) = scan .top acc ts := by
  cases ts with
  | nil => rfl
  | cons t ts' =>
    by_cases ht : t.kind = TokKind.data
    · rw [show pushTok .data c (t :: ts') = ⟨.data, c :: t.val⟩ :: ts' from by
        simp [pushTok, ht]]
      rw [show scan .top acc (⟨.data, c :: t.val⟩ :: ts') = scan .top acc ts' from rfl]
      rw [show scan .top acc (t :: ts') =
        (if t.kind = .blockBegin then scan .seekKw acc ts' else scan .top acc ts')
        from rfl]
      rw [if_neg (by rw [ht]; decide)]
    · rw [pushTok_head_ne c t ts' ht]
      rw [show scan .top acc (⟨.data, [c]⟩ :: t :: ts') = scan .top acc (t :: ts')
        from rfl]

theorem scan_emitToks (n v : List Char) (acc : List (List Char × List Char))
    (ts : List Tok) :
    scan .top acc (emitToks n v ++ ts) =
      scan .top (dictInsert n (normalize ('\n' :: (v ++ ['\n']))) acc) ts := rfl

theorem safeHead_append_nl (c : Char) (v' : List Char) (cs : List Char) :
    safeHead c (v' ++ ['\n']) cs = safeHead c v' ['\n'] := by
  by_cases hc : c = '\x7b'
  · subst hc
    cases v' with
    | nil => simp [safeHead, badSnd]
    | cons c2 v'' => simp [safeHead]
  · simp [safeHead, hc]

theorem safeChunk_append_nl : ∀ (v cs : List Char), safeChunk v ['\n'] = true →
    safeChunk (v ++ ['\n']) cs = true := by
  intro v
  induction v with
  | nil => intro cs _; simp [safeChunk, safeHead, badSnd]
  | cons c v' ih =>
    intro cs h
    rw [show ((c :: v') ++ ['\n']) = c :: (v' ++ ['\n']) from rfl]
    simp only [safeChunk, Bool.and_eq_true] at h ⊢
    exact ⟨by rw [safeHead_append_nl]; exact h.1, ih cs h.2⟩

theorem safeChunk_wrap {v : List Char} (cs : List Char)
    (h : safeChunk v ['\n'] = true) :
    safeChunk ('\n' :: (v ++ ['\n'])) cs = true := by
  simp only [safeChunk, Bool.and_eq_true]
  exact ⟨by simp [safeHead], safeChunk_append_nl v cs h⟩

theorem optMap_some (f : List Tok → List Tok) (x : List Tok) :
    f <$> (some x : Option (List Tok)) = some (f x) := rfl

/-- Tokenizing one non-empty field emission prepends its fourteen tokens,
with the final newline merged into whatever data token may follow. -/
theorem lex_emit (n v cs : List Char) (hn : n ≠ [])
    (hw : n.all isWordChar = true) (hnv : normalize v = v) (hv : v ≠ [])
    (hsafe : safeChunk v ['\n'] = true) :
    lex .root (emitField n v ++ cs) =
      (fun ts => emitToks n v ++ pushTok .data '\n' ts) <$> lex .root cs := by
  have hshape : emitField n v ++ cs =
      '\n' :: '\x7b' :: '%' :: ' ' :: (("block".data) ++ ' ' :: (n ++ ' ' :: '%' ::
        '\x7d' :: ((('\n' :: (v ++ ['\n'])) ++ '\x7b' :: '%' :: ' ' ::
          (("endblock".data) ++ ' ' :: '%' :: '\x7d' :: '\n' :: cs))))) := by
    simp [emitField, hnv, hv]
  rw [hshape, lex_root_nl, lex_root_open, lex_block_sp,
    lex_block_name ("block".data) (by decide) (by decide),
    lex_block_sp, lex_block_name n hn hw, lex_block_sp, lex_block_close,
    lex_root_data ('\n' :: (v ++ ['\n'])) _ (safeChunk_wrap _ hsafe),
    lex_root_open, lex_block_sp,
    lex_block_name ("endblock".data) (by decide) (by decide),
    lex_block_sp, lex_block_close, lex_root_nl]
  cases hx : lex .root cs with
  | none => simp
  | some ts =>
    simp only [optMap_some]
    congr 1
    rw [show pushTok .ws ' ' (Tok.mk .blockEnd ['%', '\x7d'] :: pushTok .data '\n' ts) =
      Tok.mk .ws [' '] :: Tok.mk .blockEnd ['%', '\x7d'] :: pushTok .data '\n' ts
      from pushTok_head_ne _ _ _ (by simp)]
    rw [show pushTok .ws ' '
        (Tok.mk .name ("endblock".data) :: Tok.mk .ws [' '] ::
          Tok.mk .blockEnd ['%', '\x7d'] :: pushTok .data '\n' ts) =
      Tok.mk .ws [' '] :: Tok.mk .name ("endblock".data) :: Tok.mk .ws [' '] ::
        Tok.mk .blockEnd ['%', '\x7d'] :: pushTok .data '\n' ts
      from pushTok_head_ne _ _ _ (by simp)]
    rw [mergeDataList_head_ne ('\n' :: (v ++ ['\n'])) (by simp) _ _ (by decide)]
    rw [show pushTok .ws ' ' (Tok.mk .blockEnd ['%', '\x7d'] ::
        Tok.mk .data ('\n' :: (v ++ ['\n'])) :: Tok.mk .blockBegin ['\x7b', '%'] ::
        Tok.mk .ws [' '] :: Tok.mk .name ("endblock".data) :: Tok.mk .ws [' '] ::
        Tok.mk .blockEnd ['%', '\x7d'] :: pushTok .data '\n' ts) =
      Tok.mk .ws [' '] :: Tok.mk .blockEnd ['%', '\x7d'] ::
        Tok.mk .data ('\n' :: (v ++ ['\n'])) :: Tok.mk .blockBegin ['\x7b', '%'] ::
        Tok.mk .ws [' '] :: Tok.mk .name ("endblock".data) :: Tok.mk .ws [' '] ::
        Tok.mk .blockEnd ['%', '\x7d'] :: pushTok .data '\n' ts
      from pushTok_head_ne _ _ _ (by simp)]
    rw [show pushTok .ws ' ' (Tok.mk .name n :: Tok.mk .ws [' '] ::
        Tok.mk .blockEnd ['%', '\x7d'] ::
        Tok.mk .data ('\n' :: (v ++ ['\n'])) :: Tok.mk .blockBegin ['\x7b', '%'] ::
        Tok.mk .ws [' '] :: Tok.mk .name ("endblock".data) :: Tok.mk .ws [' '] ::
        Tok.mk .blockEnd ['%', '\x7d'] :: pushTok .data '\n' ts) =
      Tok.mk .ws [' '] :: Tok.mk .name n :: Tok.mk .ws [' '] ::
        Tok.mk .blockEnd ['%', '\x7d'] ::
        Tok.mk .data ('\n' :: (v ++ ['\n'])) :: Tok.mk .blockBegin ['\x7b', '%'] ::
        Tok.mk .ws [' '] :: Tok.mk .name ("endblock".data) :: Tok.mk .ws [' '] ::
        Tok.mk .blockEnd ['%', '\x7d'] :: pushTok .data '\n' ts
      from pushTok_head_ne _ _ _ (by simp)]
    rw [show pushTok .ws ' ' (Tok.mk .name ("block".data) :: Tok.mk .ws [' '] ::
        Tok.mk .name n :: Tok.mk .ws [' '] :: Tok.mk .blockEnd ['%', '\x7d'] ::
        Tok.mk .data ('\n' :: (v ++ ['\n'])) :: Tok.mk .blockBegin ['\x7b', '%'] ::
        Tok.mk .ws [' '] :: Tok.mk .name ("endblock".data) :: Tok.mk .ws [' '] ::
        Tok.mk .blockEnd ['%', '\x7d'] :: pushTok .data '\n' ts) =
      Tok.mk .ws [' '] :: Tok.mk .name ("block".data) :: Tok.mk .ws [' '] ::
        Tok.mk .name n :: Tok.mk .ws [' '] :: Tok.mk .blockEnd ['%', '\x7d'] ::
        Tok.mk .data ('\n' :: (v ++ ['\n'])) :: Tok.mk .blockBegin ['\x7b', '%'] ::
        Tok.mk .ws [' '] :: Tok.mk .name ("endblock".data) :: Tok.mk .ws [' '] ::
        Tok.mk .blockEnd ['%', '\x7d'] :: pushTok .data '\n' ts
      from pushTok_head_ne _ _ _ (by simp)]
    rw [show pushTok .data '\n' (Tok.mk .blockBegin ['\x7b', '%'] ::
        Tok.mk .ws [' '] :: Tok.mk .name ("block".data) :: Tok.mk .ws [' '] ::
        Tok.mk .name n :: Tok.mk .ws [' '] :: Tok.mk .blockEnd ['%', '\x7d'] ::
        Tok.mk .data ('\n' :: (v ++ ['\n'])) :: Tok.mk .blockBegin ['\x7b', '%'] ::
        Tok.mk .ws [' '] :: Tok.mk .name ("endblock".data) :: Tok.mk .ws [' '] ::
        Tok.mk .blockEnd ['%', '\x7d'] :: pushTok .data '\n' ts) =
      Tok.mk .data ['\n'] :: Tok.mk .blockBegin ['\x7b', '%'] ::
        Tok.mk .ws [' '] :: Tok.mk .name ("block".data) :: Tok.mk .ws [' '] ::
        Tok.mk .name n :: Tok.mk .ws [' '] :: Tok.mk .blockEnd ['%', '\x7d'] ::
        Tok.mk .data ('\n' :: (v ++ ['\n'])) :: Tok.mk .blockBegin ['\x7b', '%'] ::
        Tok.mk .ws [' '] :: Tok.mk .name ("endblock".data) :: Tok.mk .ws [' '] ::
        Tok.mk .blockEnd ['%', '\x7d'] :: pushTok .data '\n' ts
      from pushTok_head_ne _ _ _ (by simp)]
    rfl

end Cms

/-! ## Claims -/

/-- C10: a submitted edit whose form contains no `content_hash` key makes
`File.update` return the error message and leave storage untouched,
whatever the writer and whatever is on storage — the edit is rejected
before any fingerprint comparison or write. -/
theorem c10_update_without_hash_rejected
    (w : Cms.Form → List Char) (storage : Option (List Char)) (form : Cms.Form)
    (h : form.contentHash = none) :
    Cms.update w storage form = (some Cms.errMsg, storage) := by
  simp [Cms.update, h]

/-- C10 witness: a concrete hashless form against existing storage. -/
theorem c10_update_without_hash_rejected_witness :
    Cms.update Cms.fileWrite (some ("a".data)) ⟨none, [], none, []⟩ =
      (some Cms.errMsg, some ("a".data)) :=
  c10_update_without_hash_rejected Cms.fileWrite (some ("a".data)) ⟨none, [], none, []⟩ rfl

/-- C5: a write submitted with a fingerprint differing from the
fingerprint of the content currently on storage returns the conflict
message and leaves the current content on storage — the submitted edit is
not applied, whatever the writer. -/
theorem c5_update_conflict_keeps_storage
    (w : Cms.Form → List Char) (cur h : List Char) (form : Cms.Form)
    (hch : form.contentHash = some h) (hne : h ≠ Cms.hashHex cur) :
    Cms.update w (some cur) form = (some Cms.conflictMsg, some cur) := by
  simp [Cms.update, hch, Ne.symm hne]

/-- C5 witness: the stale fingerprint `"x"` against storage `"a"`. -/
theorem c5_update_conflict_keeps_storage_witness :
    Cms.update Cms.fileWrite (some ("a".data)) ⟨some ("x".data), [], none, []⟩ =
      (some Cms.conflictMsg, some ("a".data)) :=
  c5_update_conflict_keeps_storage Cms.fileWrite ("a".data) ("x".data)
    ⟨some ("x".data), [], none, []⟩ rfl (by decide)

/-- C7: field extraction on
`\x7b%block body%\x7d\x7b%block nested%\x7dX\x7b%endblock%\x7dY\x7b%endblock%\x7d`
produces exactly the one field `body`, whose content is the verbatim text
`\x7b%block nested%\x7dX\x7b%endblock%\x7dY`: the nested region is not
extracted separately and the enclosing directives are excluded. -/
theorem c7_nested_region_verbatim :
    Cms.getFields
      (("\x7b%block body%\x7d\x7b%block nested%\x7dX\x7b%endblock%\x7dY\x7b%endblock%\x7d").data) =
      some [(("body".data), (("\x7b%block nested%\x7dX\x7b%endblock%\x7dY").data))] := by
  decide

/-- C8: in a structured-mode write, a field whose normalized value is
empty contributes no directive and no content — the serialized output
equals the output for the form without that field. -/
theorem c8_empty_field_omitted
    (ch : Option (List Char)) (t n v : List Char)
    (fs1 fs2 : List (List Char × List Char)) (h : Cms.normalize v = []) :
    Cms.htmlWrite ⟨ch, t, none, fs1 ++ (n, v) :: fs2⟩ =
      Cms.htmlWrite ⟨ch, t, none, fs1 ++ fs2⟩ := by
  simp [Cms.htmlWrite, Cms.serializeFields_append, Cms.serializeFields,
    Cms.emitField_empty h]

/-- C8 witness: deleting field `a` (value a blank) between fields. -/
theorem c8_empty_field_omitted_witness :
    Cms.htmlWrite ⟨none, ("t".data), none, [(("a".data), (" ".data)), (("b".data), ("X".data))]⟩ =
      Cms.htmlWrite ⟨none, ("t".data), none, [(("b".data), ("X".data))]⟩ :=
  c8_empty_field_omitted none ("t".data) ("a".data) (" ".data) [] [(("b".data), ("X".data))]
    (by decide)

/-- C9 counterexample: a raw-mode write with no parent does not write the
normalized text unchanged — `HTMLFile._write` appends a terminating
newline, so the file content is `"x\n"`, not `"x"`. -/
theorem c9_counterexample_trailing_newline :
    Cms.htmlWrite ⟨none, [], some ("x".data), []⟩ = some ("x\n".data) ∧
      some ("x\n".data) ≠ some ("x".data) := by
  constructor
  · decide
  · decide

/-- C9 amended: for a raw-mode write with non-empty normalized text `c`:
when no parent is set, or the text has a top-level `block` directive, the
output is the extends header (empty without a parent) followed by `c` and
one terminating newline; when a parent is set and the text has no
top-level `block` directive, the output is the extends header followed by
`c` wrapped in a `content` region. -/
theorem c9_raw_mode_write
    (ch : Option (List Char)) (t : List Char)
    (fs : List (List Char × List Char)) (raw c : List Char)
    (hn : Cms.normalize raw = c) (hne : c ≠ []) :
    ((t = [] ∨ Cms.isTemplate c = some true) →
      Cms.htmlWrite ⟨ch, t, some raw, fs⟩ = some (Cms.extendsHdr t ++ c ++ ['\n'])) ∧
    (t ≠ [] → Cms.isTemplate c = some false →
      Cms.htmlWrite ⟨ch, t, some raw, fs⟩ =
        some (Cms.extendsHdr t ++ ("\n\x7b% block content %\x7d\n".data) ++ c
          ++ ("\n\x7b% endblock %\x7d\n".data))) := by
  subst hn
  constructor
  · rintro (ht | his)
    · simp [Cms.htmlWrite, hne, ht]
    · by_cases ht : t = []
      · simp [Cms.htmlWrite, hne, ht]
      · simp [Cms.htmlWrite, hne, ht, his]
  · intro ht his
    simp [Cms.htmlWrite, hne, ht, his]

/-- C9 witness: both raw-mode branches at concrete inputs — text `"x"`
with parent `"t"` is wrapped in a `content` region; a text that already
has a top-level block is written with only the header and a newline. -/
theorem c9_raw_mode_write_witness :
    Cms.htmlWrite ⟨none, ("t".data), some ("x".data), []⟩ =
      some (Cms.extendsHdr ("t".data) ++ ("\n\x7b% block content %\x7d\n".data)
        ++ ("x".data) ++ ("\n\x7b% endblock %\x7d\n".data)) ∧
    Cms.htmlWrite ⟨none, ("t".data), some ("\x7b%block a%\x7dX\x7b%endblock%\x7d".data), []⟩ =
      some (Cms.extendsHdr ("t".data)
        ++ ("\x7b%block a%\x7dX\x7b%endblock%\x7d".data) ++ ['\n']) :=
  ⟨(c9_raw_mode_write none ("t".data) [] ("x".data) ("x".data) (by decide) (by decide)).2
      (by decide) (by decide),
   (c9_raw_mode_write none ("t".data) [] ("\x7b%block a%\x7dX\x7b%endblock%\x7d".data)
      ("\x7b%block a%\x7dX\x7b%endblock%\x7d".data) (by decide) (by decide)).1
      (Or.inr (by decide))⟩

/-- C3 counterexample: for the on-storage content `"x\n"`, the fingerprint
computed by `File.render` is the digest of the raw text and differs from
the digest of the normalized text. -/
theorem c3_counterexample_raw_digest :
    (Cms.renderInfo ("x\n".data) none).2 ≠ Cms.hashHex (Cms.normalize ("x\n".data)) := by
  decide

/-- C3 amended: the fingerprint handed out on read is the digest of the
raw (unnormalized) on-storage content, and the write-time comparison also
digests the raw current content: a submitted fingerprint equal to the raw
digest lets the write proceed, a different one is a conflict. -/
theorem c3_fingerprint_of_raw_content
    (content cur h : List Char) (fc : Option (List Char))
    (w : Cms.Form → List Char) (form : Cms.Form)
    (hch : form.contentHash = some h) :
    (Cms.renderInfo content fc).2 = Cms.hashHex content ∧
    (h ≠ Cms.hashHex cur →
      Cms.update w (some cur) form = (some Cms.conflictMsg, some cur)) ∧
    (h = Cms.hashHex cur →
      Cms.update w (some cur) form = (none, some (w form))) := by
  refine ⟨rfl, fun hne => ?_, fun he => ?_⟩
  · simp [Cms.update, hch, Ne.symm hne]
  · simp [Cms.update, hch, he]

/-- C3 witness: the matching raw digest of `"a"` lets the write through. -/
theorem c3_fingerprint_of_raw_content_witness :
    (Cms.renderInfo ("x\n".data) none).2 = Cms.hashHex ("x\n".data) ∧
      Cms.update Cms.fileWrite (some ("a".data))
          ⟨some (Cms.hashHex ("a".data)), [], none, []⟩ =
        (none, some (Cms.fileWrite ⟨some (Cms.hashHex ("a".data)), [], none, []⟩)) :=
  ⟨(c3_fingerprint_of_raw_content ("x\n".data) ("a".data) (Cms.hashHex ("a".data)) none
      Cms.fileWrite ⟨some (Cms.hashHex ("a".data)), [], none, []⟩ rfl).1,
   (c3_fingerprint_of_raw_content ("x\n".data) ("a".data) (Cms.hashHex ("a".data)) none
      Cms.fileWrite ⟨some (Cms.hashHex ("a".data)), [], none, []⟩ rfl).2.2 rfl⟩

/-- C2 counterexample: the template `\x7b%block a%\x7dX\x7b%endblock%\x7d`
has no `extends` directive, yet its resolved field set is the single
implicit `content` field holding the whole text — not the FieldExtractor
output, which is the field `a`. -/
theorem c2_counterexample_implicit_content :
    Cms.renderFields ("\x7b%block a%\x7dX\x7b%endblock%\x7d".data) [] =
      some [(("content".data),
        ⟨[], [], ("\x7b%block a%\x7dX\x7b%endblock%\x7d".data), true⟩)] ∧
    Cms.getFields ("\x7b%block a%\x7dX\x7b%endblock%\x7d".data) =
      some [(("a".data), ("X".data))] ∧
    ((Cms.renderFields ("\x7b%block a%\x7dX\x7b%endblock%\x7d".data) []).getD []).map Prod.fst ≠
      ((Cms.getFields ("\x7b%block a%\x7dX\x7b%endblock%\x7d".data)).getD []).map Prod.fst := by
  refine ⟨by decide, by decide, by decide⟩

/-- C2 amended: whenever the template's text has no `extends` directive
(`_get_template` returns the empty name), the resolved field set is the
single implicit `content` field holding the entire normalized text —
regardless of any `block` directives; the FieldExtractor runs on the
child only when an `extends` directive is present. -/
theorem c2_no_extends_implicit_content
    (content parentText : List Char) (h : Cms.getTemplate content = some []) :
    Cms.renderFields content parentText =
      some [(("content".data), ⟨[], [], Cms.normalize content, true⟩)] := by
  simp [Cms.renderFields, h]

/-- C2 witness: the block-bearing, extends-free template. -/
theorem c2_no_extends_implicit_content_witness :
    Cms.renderFields ("\x7b%block a%\x7dX\x7b%endblock%\x7d".data) [] =
      some [(("content".data),
        ⟨[], [], Cms.normalize ("\x7b%block a%\x7dX\x7b%endblock%\x7d".data), true⟩)] :=
  c2_no_extends_implicit_content ("\x7b%block a%\x7dX\x7b%endblock%\x7d".data) []
    (by decide)

/-- C1 counterexample: for parent `\x7b%block title%\x7dHome\x7b%endblock%\x7d`
and child `\x7b%extends "parent"%\x7d\x7b%block body%\x7dHi\x7b%endblock%\x7d`,
the field `body` is present in the child's own extraction yet resolves
with `active = false`, while the parent-only field `title` resolves with
`active = true` — the opposite of the claimed marking. -/
theorem c1_counterexample_active_inverted :
    Cms.getFields
        ("\x7b%extends \"parent\"%\x7d\x7b%block body%\x7dHi\x7b%endblock%\x7d".data) =
      some [(("body".data), ("Hi".data))] ∧
    Cms.renderFields
        ("\x7b%extends \"parent\"%\x7d\x7b%block body%\x7dHi\x7b%endblock%\x7d".data)
        ("\x7b%block title%\x7dHome\x7b%endblock%\x7d".data) =
      some [(("title".data), ⟨("field_".data), ("Home".data), [], true⟩),
            (("body".data), ⟨("field_".data), [], ("Hi".data), false⟩)] := by
  refine ⟨by decide, by decide⟩

namespace Cms

/-- A successful extraction means the token stream ended back in the
top-level loop: the region nesting depth at end of stream is zero. -/
theorem scan_some_endDepth (ts : List Tok) :
    ∀ (st : ScanSt) (acc r : List (List Char × List Char)),
      scan st acc ts = some r → endDepth st.erase ts = 0 := by
  induction ts with
  | nil =>
    intro st acc r h
    cases st with
    | top => rfl
    | seekKw => exact absurd h (by simp [scan])
    | seekName => exact absurd h (by simp [scan])
    | seekEnd n => exact absurd h (by simp [scan])
    | blk n d dat => exact absurd h (by simp [scan])
    | blkDir n d dat buf => exact absurd h (by simp [scan])
  | cons t ts ih =>
    intro st acc r h
    cases st with
    | top =>
      by_cases hk : t.kind = TokKind.blockBegin
      · simp only [scan, if_pos hk] at h
        simpa [endDepth, hk, ScanSt.erase] using ih _ _ _ h
      · simp only [scan, if_neg hk] at h
        simpa [endDepth, hk, ScanSt.erase] using ih _ _ _ h
    | seekKw =>
      by_cases hk : t.kind = TokKind.name
      · by_cases hv : t.val = ("block".data)
        · simp only [scan, if_pos hk, if_pos hv] at h
          simpa [endDepth, hk, hv, ScanSt.erase] using ih _ _ _ h
        · simp only [scan, if_pos hk, if_neg hv] at h
          simpa [endDepth, hk, hv, ScanSt.erase] using ih _ _ _ h
      · simp only [scan, if_neg hk] at h
        simpa [endDepth, hk, ScanSt.erase] using ih _ _ _ h
    | seekName =>
      by_cases hk : t.kind = TokKind.name
      · simp only [scan, if_pos hk] at h
        simpa [endDepth, hk, ScanSt.erase] using ih _ _ _ h
      · simp only [scan, if_neg hk] at h
        simpa [endDepth, hk, ScanSt.erase] using ih _ _ _ h
    | seekEnd n =>
      by_cases hk : t.kind = TokKind.blockEnd
      · simp only [scan, if_pos hk] at h
        simpa [endDepth, hk, ScanSt.erase] using ih _ _ _ h
      · simp only [scan, if_neg hk] at h
        simpa [endDepth, hk, ScanSt.erase] using ih _ _ _ h
    | blk n d dat =>
      by_cases hk : t.kind = TokKind.blockBegin
      · simp only [scan, if_pos hk] at h
        simpa [endDepth, hk, ScanSt.erase] using ih _ _ _ h
      · simp only [scan, if_neg hk] at h
        simpa [endDepth, hk, ScanSt.erase] using ih _ _ _ h
    | blkDir n d dat buf =>
      by_cases hk : t.kind = TokKind.name
      · by_cases hv : t.val = ("endblock".data)
        · by_cases hd : d ≤ 1
          · simp only [scan, if_pos hk, if_pos hv, if_pos hd] at h
            simpa [endDepth, hk, hv, hd, ScanSt.erase] using ih _ _ _ h
          · simp only [scan, if_pos hk, if_pos hv, if_neg hd] at h
            simpa [endDepth, hk, hv, hd, ScanSt.erase] using ih _ _ _ h
        · by_cases hb : t.val = ("block".data)
          · simp only [scan, if_pos hk, if_neg hv, if_pos hb] at h
            simpa [endDepth, hk, hv, hb, ScanSt.erase] using ih _ _ _ h
          · simp only [scan, if_pos hk, if_neg hv, if_neg hb] at h
            simpa [endDepth, hk, hv, hb, ScanSt.erase] using ih _ _ _ h
      · simp only [scan, if_neg hk] at h
        simpa [endDepth, hk, ScanSt.erase] using ih _ _ _ h

end Cms

/-- C4: when the token stream of an input leaves the extractor at a
positive region nesting depth at end of stream (a `block` directive with
no matching `endblock`), field extraction returns no mapping at all — the
parse fails instead of silently truncating. -/
theorem c4_unterminated_region_fails
    (content : List Char) (ts : List Cms.Tok)
    (hl : Cms.lex .root content = some ts)
    (hd : 0 < Cms.endDepth .top ts) :
    Cms.getFields content = none := by
  unfold Cms.getFields
  rw [hl]
  cases hsc : Cms.scan .top [] ts with
  | none => simp [Option.bind, hsc]
  | some r =>
    have h0 := Cms.scan_some_endDepth ts .top [] r hsc
    simp [Cms.ScanSt.erase] at h0
    omega

/-- C4 witness: the input `\x7b%block a%\x7dX` lexes to a stream ending at
depth 1 and yields no field mapping — in particular no truncated field
`a`. -/
theorem c4_unterminated_region_fails_witness :
    Cms.lex .root ("\x7b%block a%\x7dX".data) =
      some [⟨.blockBegin, ['\x7b', '%']⟩, ⟨.name, ("block".data)⟩, ⟨.ws, [' ']⟩,
            ⟨.name, ['a']⟩, ⟨.blockEnd, ['%', '\x7d']⟩, ⟨.data, ['X']⟩] ∧
    0 < Cms.endDepth .top
      [⟨.blockBegin, ['\x7b', '%']⟩, ⟨.name, ("block".data)⟩, ⟨.ws, [' ']⟩,
       ⟨.name, ['a']⟩, ⟨.blockEnd, ['%', '\x7d']⟩, ⟨.data, ['X']⟩] ∧
    Cms.getFields ("\x7b%block a%\x7dX".data) = none :=
  ⟨by decide, by decide,
   c4_unterminated_region_fails ("\x7b%block a%\x7dX".data)
     [⟨.blockBegin, ['\x7b', '%']⟩, ⟨.name, ("block".data)⟩, ⟨.ws, [' ']⟩,
      ⟨.name, ['a']⟩, ⟨.blockEnd, ['%', '\x7d']⟩, ⟨.data, ['X']⟩]
     (by decide) (by decide)⟩

namespace Cms

/-- Keys of an insert are the old keys plus possibly the new one. -/
theorem dictInsert_keys_mem {k x : List Char} {v : α} {d : List (List Char × α)}
    (h : x ∈ (dictInsert k v d).map Prod.fst) : x = k ∨ x ∈ d.map Prod.fst := by
  induction d with
  | nil => simpa [dictInsert] using h
  | cons p rest ih =>
    by_cases hp : p.1 = k
    · simp only [dictInsert, if_pos hp, List.map_cons, List.mem_cons] at h
      rcases h with h | h
      · exact Or.inl h
      · exact Or.inr (by rw [List.map_cons]; exact List.mem_cons_of_mem _ h)
    · simp only [dictInsert, if_neg hp, List.map_cons, List.mem_cons] at h
      rcases h with h | h
      · exact Or.inr (by rw [List.map_cons, h]; exact List.mem_cons_self _ _)
      · rcases ih h with h | h
        · exact Or.inl h
        · exact Or.inr (by rw [List.map_cons]; exact List.mem_cons_of_mem _ h)

/-- Python dict assignment keeps the keys duplicate-free. -/
theorem dictInsert_nodup {k : List Char} {v : α} {d : List (List Char × α)}
    (h : (d.map Prod.fst).Nodup) : ((dictInsert k v d).map Prod.fst).Nodup := by
  induction d with
  | nil => simp [dictInsert]
  | cons p rest ih =>
    simp only [List.map_cons, List.nodup_cons] at h
    by_cases hp : p.1 = k
    · rw [show dictInsert k v (p :: rest) = (k, v) :: rest from by simp [dictInsert, hp]]
      rw [List.map_cons, List.nodup_cons]
      exact ⟨hp ▸ h.1, h.2⟩
    · simp only [dictInsert, if_neg hp, List.map_cons, List.nodup_cons]
      refine ⟨fun hmem => ?_, ih h.2⟩
      rcases dictInsert_keys_mem hmem with h1 | h1
      · exact hp h1
      · exact h.1 h1

/-- Inserting an absent key appends the pair. -/
theorem dictInsert_append {k : List Char} {v : α} {d : List (List Char × α)}
    (h : k ∉ d.map Prod.fst) : dictInsert k v d = d ++ [(k, v)] := by
  induction d with
  | nil => rfl
  | cons p rest ih =>
    simp only [List.map_cons, List.mem_cons] at h
    push_neg at h
    have hp : ¬ p.1 = k := fun he => h.1 he.symm
    simp [dictInsert, hp, ih h.2]

/-- Looking up an absent key. -/
theorem dictFind_eq_none {k : List Char} {d : List (List Char × α)}
    (h : k ∉ d.map Prod.fst) : dictFind d k = none := by
  induction d with
  | nil => rfl
  | cons p rest ih =>
    simp only [List.map_cons, List.mem_cons] at h
    push_neg at h
    have hp : ¬ p.1 = k := fun he => h.1 he.symm
    simp [dictFind, hp, ih h.2]

/-- Lookup after inserting the same key. -/
theorem dictFind_insert_same {k : List Char} {v : α} {d : List (List Char × α)} :
    dictFind (dictInsert k v d) k = some v := by
  induction d with
  | nil => simp [dictInsert, dictFind]
  | cons p rest ih =>
    by_cases hp : p.1 = k
    · simp [dictInsert, hp, dictFind]
    · simp [dictInsert, hp, dictFind, ih]

/-- Lookup after inserting a different key. -/
theorem dictFind_insert_other {k k' : List Char} {v : α} {d : List (List Char × α)}
    (h : k' ≠ k) : dictFind (dictInsert k v d) k' = dictFind d k' := by
  have hkk : ¬ k = k' := fun he => h he.symm
  induction d with
  | nil => simp [dictInsert, dictFind, hkk]
  | cons p rest ih =>
    by_cases hp : p.1 = k
    · rw [show dictInsert k v (p :: rest) = (k, v) :: rest from by simp [dictInsert, hp]]
      rw [show dictFind ((k, v) :: rest) k' = if k = k' then some v else dictFind rest k'
        from rfl]
      rw [if_neg hkk]
      rw [show dictFind (p :: rest) k' = if p.1 = k' then some p.2 else dictFind rest k'
        from rfl]
      rw [if_neg (by rw [hp]; exact hkk)]
    · simp only [dictInsert, if_neg hp]
      rw [show dictFind (p :: dictInsert k v rest) k' =
          if p.1 = k' then some p.2 else dictFind (dictInsert k v rest) k' from rfl]
      rw [show dictFind (p :: rest) k' = if p.1 = k' then some p.2 else dictFind rest k'
        from rfl]
      rw [ih]

/-- A dict built from a duplicate-free pair list is that list. -/
theorem buildDict_eq_self {l : List (List Char × α)}
    (h : (l.map Prod.fst).Nodup) : buildDict l = l := by
  have go : ∀ (l : List (List Char × α)) (acc : List (List Char × α)),
      (l.map Prod.fst).Nodup → (∀ p ∈ l, p.1 ∉ acc.map Prod.fst) →
      l.foldl (fun d p => dictInsert p.1 p.2 d) acc = acc ++ l := by
    intro l
    induction l with
    | nil => intro acc _ _; simp
    | cons p rest ih =>
      intro acc hnd hdis
      rw [List.map_cons, List.nodup_cons] at hnd
      rw [List.foldl_cons, dictInsert_append (hdis p (by exact List.mem_cons_self _ _)),
        ih _ hnd.2 ?_, List.append_assoc]
      · rfl
      · intro q hq
        rw [List.map_append, List.mem_append]
        push_neg
        refine ⟨hdis q (List.mem_cons_of_mem _ hq), ?_⟩
        intro hcon
        have hq1 : q.1 = p.1 := by simpa using hcon
        exact hnd.1 (hq1 ▸ List.mem_map_of_mem Prod.fst hq)
  simpa using go l [] h (by simp)

/-- Lookup through a value-only transformation of the pairs. -/
theorem dictFind_map_pair {l : List (List Char × β)} {k : List Char}
    (g : List Char → β → α) :
    dictFind (l.map (fun p => (p.1, g p.1 p.2))) k = (dictFind l k).map (g k) := by
  induction l with
  | nil => rfl
  | cons p rest ih =>
    by_cases hp : p.1 = k
    · subst hp; simp [dictFind]
    · simp [dictFind, hp, ih]

/-- Lookup in an updated dict: the overlay wins where it is defined. -/
theorem dictFind_dictUpdate {k : List Char} :
    ∀ (o d : List (List Char × α)), (o.map Prod.fst).Nodup →
      dictFind (dictUpdate d o) k =
        match dictFind o k with
        | some v => some v
        | none => dictFind d k := by
  intro o
  induction o with
  | nil => intro d _; rfl
  | cons p rest ih =>
    intro d hnd
    rw [List.map_cons, List.nodup_cons] at hnd
    have hstep : dictUpdate d (p :: rest) = dictUpdate (dictInsert p.1 p.2 d) rest := rfl
    rw [hstep, ih _ hnd.2]
    by_cases hp : p.1 = k
    · have hnone : dictFind rest k = none := dictFind_eq_none (hp ▸ hnd.1)
      rw [hnone]
      rw [show dictFind (p :: rest) k = if p.1 = k then some p.2 else dictFind rest k
        from rfl]
      rw [if_pos hp]
      subst hp
      exact dictFind_insert_same
    · rw [show dictFind (p :: rest) k = if p.1 = k then some p.2 else dictFind rest k
        from rfl]
      rw [if_neg hp]
      rw [dictFind_insert_other (fun he => hp he.symm)]

/-- Keys of the parent-seed comprehension of `HTMLFile.render`. -/
theorem seedMap_keys (pf : List (List Char × List Char)) :
    ((pf.map (fun p => (p.1, HTMLField.mk ("field_".data) p.2 [] true))).map Prod.fst) =
      pf.map Prod.fst := by
  induction pf with
  | nil => rfl
  | cons p rest ih => simp [ih]

/-- Lookup in the parent-seed comprehension of `HTMLFile.render`. -/
theorem seedMap_find (pf : List (List Char × List Char)) (n : List Char) :
    dictFind (pf.map (fun p => (p.1, HTMLField.mk ("field_".data) p.2 [] true))) n =
      (dictFind pf n).map (fun ph => HTMLField.mk ("field_".data) ph [] true) := by
  induction pf with
  | nil => rfl
  | cons p rest ih =>
    by_cases hp : p.1 = n
    · subst hp; simp [dictFind]
    · simp [dictFind, hp, ih]

/-- Keys of the child-overlay comprehension of `HTMLFile.render`. -/
theorem childMap_keys (f0 : List (List Char × HTMLField))
    (cf : List (List Char × List Char)) :
    ((cf.map (fun p => (p.1, HTMLField.mk ("field_".data)
        (match dictFind f0 p.1 with
         | some f => f.placeholder
         | none => [])
        p.2 (dictFind f0 p.1).isSome))).map Prod.fst) = cf.map Prod.fst := by
  induction cf with
  | nil => rfl
  | cons p rest ih => simp [ih]

/-- Lookup in the child-overlay comprehension of `HTMLFile.render`. -/
theorem childMap_find (f0 : List (List Char × HTMLField))
    (cf : List (List Char × List Char)) (n : List Char) :
    dictFind (cf.map (fun p => (p.1, HTMLField.mk ("field_".data)
        (match dictFind f0 p.1 with
         | some f => f.placeholder
         | none => [])
        p.2 (dictFind f0 p.1).isSome))) n =
      (dictFind cf n).map (fun v => HTMLField.mk ("field_".data)
        (match dictFind f0 n with
         | some f => f.placeholder
         | none => [])
        v (dictFind f0 n).isSome) := by
  induction cf with
  | nil => rfl
  | cons p rest ih =>
    by_cases hp : p.1 = n
    · subst hp; simp [dictFind]
    · simp [dictFind, hp, ih]

/-- The extractor only ever adds fields through dict assignment, so a
successful extraction has duplicate-free field names. -/
theorem scan_nodup (ts : List Tok) :
    ∀ (st : ScanSt) (acc r : List (List Char × List Char)),
      (acc.map Prod.fst).Nodup → scan st acc ts = some r →
      (r.map Prod.fst).Nodup := by
  induction ts with
  | nil =>
    intro st acc r ha h
    cases st with
    | top => cases h; exact ha
    | seekKw => exact absurd h (by simp [scan])
    | seekName => exact absurd h (by simp [scan])
    | seekEnd n => exact absurd h (by simp [scan])
    | blk n d dat => exact absurd h (by simp [scan])
    | blkDir n d dat buf => exact absurd h (by simp [scan])
  | cons t ts ih =>
    intro st acc r ha h
    cases st with
    | top =>
      by_cases hk : t.kind = TokKind.blockBegin
      · exact ih _ _ _ ha (by simpa [scan, hk] using h)
      · exact ih _ _ _ ha (by simpa [scan, hk] using h)
    | seekKw =>
      by_cases hk : t.kind = TokKind.name
      · by_cases hv : t.val = ("block".data)
        · exact ih _ _ _ ha (by simpa [scan, hk, hv] using h)
        · exact ih _ _ _ ha (by simpa [scan, hk, hv] using h)
      · exact ih _ _ _ ha (by simpa [scan, hk] using h)
    | seekName =>
      by_cases hk : t.kind = TokKind.name
      · exact ih _ _ _ ha (by simpa [scan, hk] using h)
      · exact ih _ _ _ ha (by simpa [scan, hk] using h)
    | seekEnd n =>
      by_cases hk : t.kind = TokKind.blockEnd
      · exact ih _ _ _ ha (by simpa [scan, hk] using h)
      · exact ih _ _ _ ha (by simpa [scan, hk] using h)
    | blk n d dat =>
      by_cases hk : t.kind = TokKind.blockBegin
      · exact ih _ _ _ ha (by simpa [scan, hk] using h)
      · exact ih _ _ _ ha (by simpa [scan, hk] using h)
    | blkDir n d dat buf =>
      by_cases hk : t.kind = TokKind.name
      · by_cases hv : t.val = ("endblock".data)
        · by_cases hd : d ≤ 1
          · exact ih _ _ _ (dictInsert_nodup ha) (by simpa [scan, hk, hv, hd] using h)
          · exact ih _ _ _ ha (by simpa [scan, hk, hv, hd] using h)
        · by_cases hb : t.val = ("block".data)
          · exact ih _ _ _ ha (by simpa [scan, hk, hv, hb] using h)
          · exact ih _ _ _ ha (by simpa [scan, hk, hv, hb] using h)
      · exact ih _ _ _ ha (by simpa [scan, hk] using h)

/-- Extracted field mappings have duplicate-free names. -/
theorem getFields_nodup {content : List Char} {fs : List (List Char × List Char)}
    (h : getFields content = some fs) : (fs.map Prod.fst).Nodup := by
  unfold getFields at h
  cases hl : lex .root content with
  | none => rw [hl] at h; exact absurd h (by simp)
  | some ts =>
    rw [hl] at h
    exact scan_nodup ts .top [] fs (by simp) h

/-- Serializing a benign field mapping in structured mode and scanning the
tokenized output appends exactly the fields with non-empty value. -/
theorem scan_serialize :
    ∀ (fields acc : List (List Char × List Char)),
      (∀ p ∈ fields, p.1 ≠ [] ∧ p.1.all isWordChar = true ∧
        normalize p.2 = p.2 ∧ '\r' ∉ p.2 ∧ safeChunk p.2 ['\n'] = true) →
      (fields.map Prod.fst).Nodup →
      (∀ p ∈ fields, p.1 ∉ acc.map Prod.fst) →
      (lex .root (serializeFields fields)).bind (scan .top acc) =
        some (acc ++ fields.filter (fun p => !p.2.isEmpty)) := by
  intro fields
  induction fields with
  | nil =>
    intro acc _ _ _
    simp [serializeFields, lex, scan]
  | cons p rest ih =>
    intro acc hf hnd hdis
    obtain ⟨n, v⟩ := p
    have hp := hf (n, v) (List.mem_cons_self _ _)
    rw [List.map_cons, List.nodup_cons] at hnd
    have hf' : ∀ q ∈ rest, q.1 ≠ [] ∧ q.1.all isWordChar = true ∧
        normalize q.2 = q.2 ∧ '\r' ∉ q.2 ∧ safeChunk q.2 ['\n'] = true :=
      fun q hq => hf q (List.mem_cons_of_mem _ hq)
    by_cases hv : v = []
    · subst hv
      rw [show serializeFields ((n, []) :: rest) = serializeFields rest from by
        simp [serializeFields, emitField_empty (by decide : normalize [] = [])]]
      rw [ih acc hf' hnd.2 (fun q hq => hdis q (List.mem_cons_of_mem _ hq))]
      simp
    · have hdis' : ∀ q ∈ rest, q.1 ∉ (acc ++ [(n, v)]).map Prod.fst := by
        intro q hq
        rw [List.map_append, List.mem_append]
        push_neg
        refine ⟨hdis q (List.mem_cons_of_mem _ hq), ?_⟩
        intro hcon
        have hq1 : q.1 = n := by simpa using hcon
        have hmem : q.1 ∈ List.map Prod.fst rest := List.mem_map_of_mem Prod.fst hq
        rw [hq1] at hmem
        exact hnd.1 hmem
      have IH' := ih (acc ++ [(n, v)]) hf' hnd.2 hdis'
      rw [show serializeFields ((n, v) :: rest) =
        emitField n v ++ serializeFields rest from rfl]
      rw [lex_emit n v (serializeFields rest) hp.1 hp.2.1 hp.2.2.1 hv hp.2.2.2.2]
      cases hx : lex .root (serializeFields rest) with
      | none =>
        rw [hx] at IH'
        exact absurd IH' (by simp)
      | some ts =>
        rw [hx] at IH'
        rw [show ((some ts).bind (scan .top (acc ++ [(n, v)]))) =
          scan .top (acc ++ [(n, v)]) ts from rfl] at IH'
        rw [show (((fun ts => emitToks n v ++ pushTok .data '\n' ts) <$>
            (some ts : Option (List Tok))).bind (scan .top acc)) =
          scan .top acc (emitToks n v ++ pushTok .data '\n' ts) from rfl]
        rw [scan_emitToks, scan_top_pushData,
          normalize_wrap hp.2.2.1 hv hp.2.2.2.1,
          dictInsert_append (hdis (n, v) (List.mem_cons_self _ _)), IH']
        have hkeep : ((n, v) :: rest).filter (fun p => !p.2.isEmpty) =
            (n, v) :: rest.filter (fun p => !p.2.isEmpty) := by
          simp [List.filter_cons, hv]
        rw [hkeep, List.append_assoc]
        rfl


/-- Per-name description of the resolved mapping built by lines 200-217:
the child's value wins where the child has the field, and `active` is
presence in the parent's extraction. -/
theorem overlayFields_find (pf cf : List (List Char × List Char))
    (hpf : (pf.map Prod.fst).Nodup) (hcf : (cf.map Prod.fst).Nodup) (n : List Char) :
    dictFind (overlayFields pf cf) n =
      match dictFind cf n with
      | some v =>
        some (HTMLField.mk ("field_".data) ((dictFind pf n).getD []) v
          (dictFind pf n).isSome)
      | none =>
        (dictFind pf n).map (fun ph => HTMLField.mk ("field_".data) ph [] true) := by
  show dictFind (dictUpdate
      (buildDict (pf.map (fun p => (p.1, HTMLField.mk ("field_".data) p.2 [] true))))
      (buildDict (cf.map (fun p => (p.1, HTMLField.mk ("field_".data)
        (match dictFind (buildDict (pf.map (fun p =>
            (p.1, HTMLField.mk ("field_".data) p.2 [] true)))) p.1 with
         | some f => f.placeholder
         | none => [])
        p.2 (dictFind (buildDict (pf.map (fun p =>
            (p.1, HTMLField.mk ("field_".data) p.2 [] true)))) p.1).isSome))))) n = _
  rw [buildDict_eq_self (by rw [seedMap_keys]; exact hpf)]
  rw [buildDict_eq_self (by rw [childMap_keys]; exact hcf)]
  rw [dictFind_dictUpdate _ _ (by rw [childMap_keys]; exact hcf)]
  rw [childMap_find, seedMap_find]
  cases hc : dictFind cf n with
  | some v =>
    cases hp : dictFind pf n with
    | some ph => simp
    | none => simp
  | none =>
    cases hp : dictFind pf n with
    | some ph => simp [seedMap_find, hp]
    | none => simp [seedMap_find, hp]

end Cms

/-- C1 amended: for every template that extends a parent, the resolved
mapping marks a field active exactly when the field is present in the
PARENT template's extraction: a field found only in the parent is
`(value = "", active = true, placeholder = parent content)`; a field
found in the child's extraction keeps the child's value, inherits the
parent's content as placeholder when the parent has the field, and is
active precisely when the parent has it (so a child-only field is
inactive); a field in neither is absent. -/
theorem c1_active_iff_in_parent
    (content parentText t : List Char)
    (pf cf : List (List Char × List Char)) (n : List Char)
    (ht : Cms.getTemplate content = some t) (htne : t ≠ [])
    (hpf : Cms.getFields parentText = some pf)
    (hcf : Cms.getFields content = some cf) :
    Cms.renderFields content parentText = some (Cms.overlayFields pf cf) ∧
    Cms.dictFind (Cms.overlayFields pf cf) n =
      (match Cms.dictFind cf n with
       | some v =>
         some (Cms.HTMLField.mk ("field_".data) ((Cms.dictFind pf n).getD []) v
           (Cms.dictFind pf n).isSome)
       | none =>
         (Cms.dictFind pf n).map
           (fun ph => Cms.HTMLField.mk ("field_".data) ph [] true)) := by
  refine ⟨?_, ?_⟩
  · simp [Cms.renderFields, ht, htne, hpf, hcf]
  · exact Cms.overlayFields_find pf cf (Cms.getFields_nodup hpf)
      (Cms.getFields_nodup hcf) n

/-- C1 witness: the parent/child pair of the counterexample — `body` is
child-only, hence inactive; `title` is parent-only, hence an active
placeholder. -/
theorem c1_active_iff_in_parent_witness :
    Cms.renderFields
        ("\x7b%extends \"parent\"%\x7d\x7b%block body%\x7dHi\x7b%endblock%\x7d".data)
        ("\x7b%block title%\x7dHome\x7b%endblock%\x7d".data) =
      some (Cms.overlayFields [(("title".data), ("Home".data))]
        [(("body".data), ("Hi".data))]) ∧
    Cms.dictFind
        (Cms.overlayFields [(("title".data), ("Home".data))]
          [(("body".data), ("Hi".data))]) ("body".data) =
      (match Cms.dictFind [(("body".data), ("Hi".data))] ("body".data) with
       | some v =>
         some (Cms.HTMLField.mk ("field_".data)
           ((Cms.dictFind [(("title".data), ("Home".data))] ("body".data)).getD []) v
           (Cms.dictFind [(("title".data), ("Home".data))] ("body".data)).isSome)
       | none =>
         (Cms.dictFind [(("title".data), ("Home".data))] ("body".data)).map
           (fun ph => Cms.HTMLField.mk ("field_".data) ph [] true)) :=
  c1_active_iff_in_parent
    ("\x7b%extends \"parent\"%\x7d\x7b%block body%\x7dHi\x7b%endblock%\x7d".data)
    ("\x7b%block title%\x7dHome\x7b%endblock%\x7d".data)
    ("parent".data) [(("title".data), ("Home".data))] [(("body".data), ("Hi".data))]
    ("body".data) (by decide) (by decide) (by decide) (by decide)

/-- C6 counterexample: for the template `\x7b%block a%\x7dx\x7b%endblock%\x7d`
(one non-nested region), serializing the extracted field mapping in
structured mode with no parent and then normalizing does not reproduce the
normalization of the original text — the serializer re-spaces the
directives and inserts newlines. -/
theorem c6_counterexample_not_textual :
    Cms.getFields ("\x7b%block a%\x7dx\x7b%endblock%\x7d".data) =
      some [(("a".data), ("x".data))] ∧
    Cms.htmlWrite ⟨none, [], none, [(("a".data), ("x".data))]⟩ =
      some ("\n\x7b% block a %\x7d\nx\n\x7b% endblock %\x7d\n".data) ∧
    Cms.normalize ("\n\x7b% block a %\x7d\nx\n\x7b% endblock %\x7d\n".data) ≠
      Cms.normalize ("\x7b%block a%\x7dx\x7b%endblock%\x7d".data) := by
  refine ⟨by decide, by decide, by decide⟩

/-- C6 amended: the structured-mode round trip holds at the level of
fields, not text: serializing a field mapping whose names are non-empty
identifier words and whose values are normalized and contain no carriage
return and no template delimiter opening, then running field extraction on
the serialized output, returns exactly the fields with non-empty value, in
order. -/
theorem c6_field_level_roundtrip
    (ch : Option (List Char)) (fields : List (List Char × List Char))
    (hf : ∀ p ∈ fields, p.1 ≠ [] ∧ p.1.all Cms.isWordChar = true ∧
      Cms.normalize p.2 = p.2 ∧ '\r' ∉ p.2 ∧ Cms.safeChunk p.2 ['\n'] = true)
    (hnd : (fields.map Prod.fst).Nodup) :
    (Cms.htmlWrite ⟨ch, [], none, fields⟩).bind Cms.getFields =
      some (fields.filter (fun p => !p.2.isEmpty)) := by
  have hw : Cms.htmlWrite ⟨ch, [], none, fields⟩ =
      some (Cms.serializeFields fields) := by
    simp [Cms.htmlWrite, Cms.extendsHdr]
  rw [hw]
  show Cms.getFields (Cms.serializeFields fields) = _
  unfold Cms.getFields
  have h := Cms.scan_serialize fields [] hf hnd (by simp)
  simpa using h

/-- C6 witness: the round trip at the mapping of the counterexample plus
an empty-valued field that is dropped. -/
theorem c6_field_level_roundtrip_witness :
    (Cms.htmlWrite ⟨none, [], none,
        [(("a".data), ("x".data)), (("b".data), [])]⟩).bind Cms.getFields =
      some [(("a".data), ("x".data))] := by
  have h := c6_field_level_roundtrip none
    [(("a".data), ("x".data)), (("b".data), [])]
    (by decide) (by decide)
  simpa using h
